import Mathlib

/-!
Verification of the equality-constrained QP solver
(`drake/solvers/equality_constrained_qp_solver.cc`).

The solver is embedded shallowly in exact arithmetic over `ℚ`:

* the program's sparse quadratic-cost and linear-equality-constraint terms
  and their assembly into dense `(G, c, A, b)` are translated directly from
  the assembly loops of `EqualityConstrainedQPSolver::Solve`;
* `Eigen::LLT` only reads the lower triangle of its argument and, in exact
  arithmetic, succeeds exactly when every pivot is positive, i.e. exactly
  when every leading principal minor of the lower-triangle symmetrization
  is positive; `lltSucceeds` encodes that test;
* the decomposition-based solves (`llt.solve`, `FullPivHouseholderQR`'s
  `solve`, `jacobiSvd(...).solve`) are, in exact arithmetic, exact linear
  solves whenever the factored matrix is invertible; they are modelled as
  multiplication by `matInv M = (M.det)⁻¹ • M.adjugate`, which agrees with
  the exact solve in every invertible case.
-/

namespace DrakeQP

open Matrix
open scoped BigOperators

/-! ## Data model: the program's cost and constraint terms -/

/-- A quadratic cost binding: `½ zᵀQz + bᵀz` over a subset of the decision
variables.  `vars i` is the global decision-variable index of local
variable `i` (the result of `prog.FindDecisionVariableIndex` on the
binding's `i`-th variable). -/
structure QuadraticCostTerm (n : ℕ) where
  nv : ℕ
  Q : Matrix (Fin nv) (Fin nv) ℚ
  b : Fin nv → ℚ
  vars : Fin nv → Fin n

/-- A linear equality constraint binding: `A_local · z = lb` over a subset
of the decision variables (`lower_bound = upper_bound` for an equality
constraint; the source reads `lower_bound`). -/
structure LinearEqualityConstraintTerm (n : ℕ) where
  nv : ℕ
  rows : ℕ
  A : Matrix (Fin rows) (Fin nv) ℚ
  lower_bound : Fin rows → ℚ
  vars : Fin nv → Fin n

/-- The part of `MathematicalProgram` that
`EqualityConstrainedQPSolver::Solve` reads.  The solver's preconditions
(no generic/linear/bounding-box/complementarity constraints, no generic
costs) are structural here: only the two supported term kinds exist. -/
structure MathematicalProgram where
  num_vars : ℕ
  quadratic_costs : List (QuadraticCostTerm num_vars)
  linear_equality_constraints : List (LinearEqualityConstraintTerm num_vars)

/-! ## Problem assembly -/

/-- Contribution of one quadratic cost term to the global Hessian `G`:
the loop `for i, for j: G(v_index[i], v_index[j]) += Q(i, j)` adds, at
global position `(p, q)`, every `Q i j` with `vars i = p` and
`vars j = q`. -/
def scatterG {n : ℕ} (t : QuadraticCostTerm n) : Matrix (Fin n) (Fin n) ℚ :=
  Matrix.of fun p q => ∑ i, ∑ j, if t.vars i = p ∧ t.vars j = q then t.Q i j else 0

/-- Contribution of one quadratic cost term to the global linear cost `c`:
the loop `c(v_index[i]) += b(i)`. -/
def scatterc {n : ℕ} (t : QuadraticCostTerm n) : Fin n → ℚ :=
  fun p => ∑ i, if t.vars i = p then t.b i else 0

/-- `G`, accumulated additively over the quadratic cost bindings starting
from `MatrixXd::Zero(num_vars, num_vars)`. -/
def assembleG {n : ℕ} (ts : List (QuadraticCostTerm n)) : Matrix (Fin n) (Fin n) ℚ :=
  ts.foldl (fun Gacc t => Gacc + scatterG t) 0

/-- `c`, accumulated additively over the quadratic cost bindings starting
from `VectorXd::Zero(num_vars)`. -/
def assemblec {n : ℕ} (ts : List (QuadraticCostTerm n)) : Fin n → ℚ :=
  ts.foldl (fun cacc t => cacc + scatterc t) 0

/-- `num_constraints`: the total number of constraint rows, summed over the
linear equality constraint bindings. -/
def numConstraints {n : ℕ} : List (LinearEqualityConstraintTerm n) → ℕ
  | [] => 0
  | t :: rest => t.rows + numConstraints rest

/-- The largest local variable index of `t` mapped to global column `q`.
The source writes `A.block(constraint_index, global_index_of(i), rows, 1) =
bc->A().col(i)` for `i = 0, 1, ...` in order, so if several local
variables of one term share a global index the last assignment wins. -/
def lastHit {n : ℕ} (t : LinearEqualityConstraintTerm n) (q : Fin n) : Option (Fin t.nv) :=
  (Finset.univ.filter fun i => t.vars i = q).max

/-- Row `r` of one constraint term, laid out on the global columns: the
term's local coefficient columns sit at the term's global variable
indices, all other columns are zero. -/
def termRow {n : ℕ} (t : LinearEqualityConstraintTerm n) (r : Fin t.rows) (q : Fin n) : ℚ :=
  match lastHit t q with
  | some i => t.A r i
  | none => 0

/-- Global constraint row `r` (as a natural-number cursor): the terms are
stacked in order, each occupying `t.rows` consecutive rows. -/
def rowOf {n : ℕ} : List (LinearEqualityConstraintTerm n) → ℕ → Fin n → ℚ
  | [], _, _ => 0
  | t :: rest, r, q => if h : r < t.rows then termRow t ⟨r, h⟩ q else rowOf rest (r - t.rows) q

/-- Global right-hand-side entry `r`: the terms' `lower_bound` vectors,
stacked in order. -/
def rhsOf {n : ℕ} : List (LinearEqualityConstraintTerm n) → ℕ → ℚ
  | [], _ => 0
  | t :: rest, r => if h : r < t.rows then t.lower_bound ⟨r, h⟩ else rhsOf rest (r - t.rows)

/-- The assembled constraint matrix `A`. -/
def assembleA {n : ℕ} (cs : List (LinearEqualityConstraintTerm n)) :
    Matrix (Fin (numConstraints cs)) (Fin n) ℚ :=
  Matrix.of fun r q => rowOf cs r q

/-- The assembled right-hand side `b`. -/
def assembleb {n : ℕ} (cs : List (LinearEqualityConstraintTerm n)) :
    Fin (numConstraints cs) → ℚ :=
  fun r => rhsOf cs r

/-! ## The numerical kernel, in exact arithmetic -/

/-- Exact inverse of a square rational matrix: `(det M)⁻¹ • adjugate M`.
This is Mathlib's `M⁻¹` (`Matrix.inv_def` plus `Ring.inverse_eq_inv`),
written so that it is computable.  For invertible `M` it is the exact
linear-solve operator; for singular `M` it is the zero matrix. -/
def matInv {k : ℕ} (M : Matrix (Fin k) (Fin k) ℚ) : Matrix (Fin k) (Fin k) ℚ :=
  (M.det)⁻¹ • M.adjugate

/-- The matrix `Eigen::LLT` actually factors: it reads only the lower
triangle of its argument and treats it as symmetric. -/
def lowerSymm {k : ℕ} (G : Matrix (Fin k) (Fin k) ℚ) : Matrix (Fin k) (Fin k) ℚ :=
  Matrix.of fun i j => if (j : ℕ) ≤ (i : ℕ) then G i j else G j i

/-- Determinant of the leading `m × m` principal submatrix. -/
def leadingMinor {k : ℕ} (G : Matrix (Fin k) (Fin k) ℚ) (m : ℕ) (h : m ≤ k) : ℚ :=
  (G.submatrix (Fin.castLE h) (Fin.castLE h)).det

/-- Whether the Cholesky factorization attempt `Eigen::LLT llt(G)` reports
`Eigen::Success`.  In exact arithmetic the factorization succeeds exactly
when every pivot is positive, i.e. exactly when every leading principal
minor of the (lower-triangle symmetrized) matrix is positive. -/
def lltSucceeds {k : ℕ} (G : Matrix (Fin k) (Fin k) ℚ) : Bool :=
  decide (∀ i : Fin k, 0 < leadingMinor (lowerSymm G) ((i : ℕ) + 1) i.isLt)

/-- `llt.solve` on a matrix right-hand side. -/
def lltSolveMat {k m : ℕ} (G : Matrix (Fin k) (Fin k) ℚ) (B : Matrix (Fin k) (Fin m) ℚ) :
    Matrix (Fin k) (Fin m) ℚ :=
  matInv (lowerSymm G) * B

/-- `llt.solve` on a vector right-hand side. -/
def lltSolveVec {k : ℕ} (G : Matrix (Fin k) (Fin k) ℚ) (v : Fin k → ℚ) : Fin k → ℚ :=
  matInv (lowerSymm G) *ᵥ v

/-- `Eigen::FullPivHouseholderQR(S).solve(v)`: in exact arithmetic, the
exact solution whenever `S` is invertible (the only regime the theorems
below rely on). -/
def qrSolve {m : ℕ} (S : Matrix (Fin m) (Fin m) ℚ) (v : Fin m → ℚ) : Fin m → ℚ :=
  matInv S *ᵥ v

/-- `A_full.jacobiSvd(ComputeThinU | ComputeThinV).solve(b_full)`: in exact
arithmetic, the exact solution whenever the matrix is invertible (the only
regime the theorems below rely on). -/
def svdSolve {k : ℕ} (M : Matrix (Fin k) (Fin k) ℚ) (v : Fin k → ℚ) : Fin k → ℚ :=
  matInv M *ᵥ v

/-- `SolutionResult` from the surrounding framework. -/
inductive SolutionResult where
  | kSolutionFound
  | kInvalidInput
  | kInfeasibleConstraints
  | kUnbounded
  | kUnknownError
  deriving DecidableEq

/-- What one call of `EqualityConstrainedQPSolver::Solve` communicates back
to the caller: the decision variable values, the reported optimal cost,
and the returned `SolutionResult`. -/
structure SolveOutput (n : ℕ) where
  x : Fin n → ℚ
  optimal_cost : ℚ
  result : SolutionResult

/-- The augmented KKT matrix of Strategy B, assembled via the four
`A_full.block(...)` assignments of the source:
top-left `G`, top-right `-Aᵀ`, bottom-left `A`, bottom-right `0`. -/
def kktMatrix {n m : ℕ} (G : Matrix (Fin n) (Fin n) ℚ) (A : Matrix (Fin m) (Fin n) ℚ) :
    Matrix (Fin (n + m)) (Fin (n + m)) ℚ :=
  Matrix.of fun i j =>
    if hi : (i : ℕ) < n then
      if hj : (j : ℕ) < n then G ⟨i, hi⟩ ⟨j, hj⟩
      else -(Aᵀ ⟨i, hi⟩ ⟨(j : ℕ) - n, by have := j.isLt; omega⟩)
    else
      if hj : (j : ℕ) < n then A ⟨(i : ℕ) - n, by have := i.isLt; omega⟩ ⟨j, hj⟩
      else 0

/-- The augmented right-hand side of Strategy B: top `n` entries `-c`,
bottom `m` entries `b`. -/
def kktRhs {n m : ℕ} (c : Fin n → ℚ) (b : Fin m → ℚ) : Fin (n + m) → ℚ :=
  fun i =>
    if hi : (i : ℕ) < n then -(c ⟨i, hi⟩)
    else b ⟨(i : ℕ) - n, by have := i.isLt; omega⟩

/-- The Lagrange multipliers `lambda` computed by the range-space path:
`qr.solve(AiG_T.transpose() * c + b)` where `AiG_T = llt.solve(Aᵀ)` and
`qr` factors `A * AiG_T`. -/
def strategyALambda {n m : ℕ} (G : Matrix (Fin n) (Fin n) ℚ) (c : Fin n → ℚ)
    (A : Matrix (Fin m) (Fin n) ℚ) (b : Fin m → ℚ) : Fin m → ℚ :=
  qrSolve (A * lltSolveMat G Aᵀ) ((lltSolveMat G Aᵀ)ᵀ *ᵥ c + b)

/-- The solution of the range-space path: `x = llt.solve(Aᵀ lambda - c)`. -/
def strategyAX {n m : ℕ} (G : Matrix (Fin n) (Fin n) ℚ) (c : Fin n → ℚ)
    (A : Matrix (Fin m) (Fin n) ℚ) (b : Fin m → ℚ) : Fin n → ℚ :=
  lltSolveVec G (Aᵀ *ᵥ strategyALambda G c A b - c)

/-- Strategy A (range-space, taken when the LLT factorization succeeds). -/
def strategyA {n m : ℕ} (G : Matrix (Fin n) (Fin n) ℚ) (c : Fin n → ℚ)
    (A : Matrix (Fin m) (Fin n) ℚ) (b : Fin m → ℚ) : SolveOutput n :=
  { x := strategyAX G c A b
    optimal_cost := (1 / 2) * (strategyAX G c A b ⬝ᵥ (G *ᵥ strategyAX G c A b + c))
    result := SolutionResult.kSolutionFound }

/-- The first `n` entries of the least-squares solution of the augmented
system (the `sol.segment(0, prog.num_vars())` extraction). -/
def strategyBX {n m : ℕ} (G : Matrix (Fin n) (Fin n) ℚ) (c : Fin n → ℚ)
    (A : Matrix (Fin m) (Fin n) ℚ) (b : Fin m → ℚ) : Fin n → ℚ :=
  fun i => svdSolve (kktMatrix G A) (kktRhs c b) (Fin.castAdd m i)

/-- Strategy B (full KKT system, the fallback when LLT fails). -/
def strategyB {n m : ℕ} (G : Matrix (Fin n) (Fin n) ℚ) (c : Fin n → ℚ)
    (A : Matrix (Fin m) (Fin n) ℚ) (b : Fin m → ℚ) : SolveOutput n :=
  { x := strategyBX G c A b
    optimal_cost := (1 / 2) * (strategyBX G c A b ⬝ᵥ (G *ᵥ strategyBX G c A b + c))
    result := SolutionResult.kSolutionFound }

/-- The solver on an assembled problem `(G, c, A, b)`, mirroring the body
of `EqualityConstrainedQPSolver::Solve` after the assembly loops: attempt
the Cholesky factorization of `G`; on success run the range-space path, on
failure run the full-KKT fallback; in either case report the cost as
`0.5 * x.dot(G * x + c)` and return `kSolutionFound`. -/
def solveKKT {n m : ℕ} (G : Matrix (Fin n) (Fin n) ℚ) (c : Fin n → ℚ)
    (A : Matrix (Fin m) (Fin n) ℚ) (b : Fin m → ℚ) : SolveOutput n :=
  if lltSucceeds G then
    { x := strategyAX G c A b
      optimal_cost := (1 / 2) * (strategyAX G c A b ⬝ᵥ (G *ᵥ strategyAX G c A b + c))
      result := SolutionResult.kSolutionFound }
  else
    { x := strategyBX G c A b
      optimal_cost := (1 / 2) * (strategyBX G c A b ⬝ᵥ (G *ᵥ strategyBX G c A b + c))
      result := SolutionResult.kSolutionFound }

/-- `EqualityConstrainedQPSolver::Solve`: assemble `(G, c, A, b)` from the
program's terms, then solve. -/
def Solve (prog : MathematicalProgram) : SolveOutput prog.num_vars :=
  solveKKT (assembleG prog.quadratic_costs) (assemblec prog.quadratic_costs)
    (assembleA prog.linear_equality_constraints)
    (assembleb prog.linear_equality_constraints)

/-- Full row rank of the constraint matrix: the rows of `A` are linearly
independent, i.e. `yᵀA = 0` (equivalently `Aᵀ y = 0`) forces `y = 0`. -/
def FullRowRank {m n : ℕ} (A : Matrix (Fin m) (Fin n) ℚ) : Prop :=
  ∀ y : Fin m → ℚ, Aᵀ *ᵥ y = 0 → y = 0

/-! ## Exactness of the modelled solves -/

theorem matInv_eq_inv {k : ℕ} (M : Matrix (Fin k) (Fin k) ℚ) : matInv M = M⁻¹ := by
  rw [matInv, Matrix.inv_def, Ring.inverse_eq_inv]

theorem matInv_mulVec_of_mulVec {k : ℕ} {M : Matrix (Fin k) (Fin k) ℚ} {v w : Fin k → ℚ}
    (hdet : M.det ≠ 0) (hw : M *ᵥ w = v) : matInv M *ᵥ v = w := by
  subst hw
  rw [matInv_eq_inv, Matrix.mulVec_mulVec,
    Matrix.nonsing_inv_mul M (isUnit_iff_ne_zero.mpr hdet), Matrix.one_mulVec]

/-! ## Positive definiteness over `ℚ` -/

theorem star_vec_eq {k : ℕ} (x : Fin k → ℚ) : star x = x :=
  funext fun i => star_trivial (x i)

theorem quadForm_pos {k : ℕ} {M : Matrix (Fin k) (Fin k) ℚ} (h : M.PosDef)
    {x : Fin k → ℚ} (hx : x ≠ 0) : 0 < x ⬝ᵥ M *ᵥ x := by
  have h2 := h.2 x hx
  rwa [star_vec_eq] at h2

theorem quadForm_nonneg {k : ℕ} {M : Matrix (Fin k) (Fin k) ℚ} (h : M.PosSemidef)
    (x : Fin k → ℚ) : 0 ≤ x ⬝ᵥ M *ᵥ x := by
  have h2 := h.2 x
  rwa [star_vec_eq] at h2

theorem posDef_transpose_eq {k : ℕ} {M : Matrix (Fin k) (Fin k) ℚ} (h : M.PosDef) :
    Mᵀ = M := by
  ext i j
  have h2 := h.1.apply j i
  rw [star_trivial] at h2
  rw [Matrix.transpose_apply, ← h2]

theorem posDef_det_ne_zero {k : ℕ} {M : Matrix (Fin k) (Fin k) ℚ} (h : M.PosDef) :
    M.det ≠ 0 := by
  intro hdet
  obtain ⟨v, hv, hMv⟩ := Matrix.exists_mulVec_eq_zero_iff.mpr hdet
  have hpos := quadForm_pos h hv
  rw [hMv, Matrix.dotProduct_zero] at hpos
  exact lt_irrefl 0 hpos

/-- A rational quadratic form that is nonnegative on all rational vectors
is nonnegative on all real vectors, by density of `ℚ` in `ℝ` and
continuity of the form. -/
theorem quadForm_nonneg_real {k : ℕ} {M : Matrix (Fin k) (Fin k) ℚ}
    (h : ∀ v : Fin k → ℚ, 0 ≤ v ⬝ᵥ M *ᵥ v) (y : Fin k → ℝ) :
    0 ≤ y ⬝ᵥ (M.map fun a => (a : ℝ)) *ᵥ y := by
  have hdense : ∀ i : Fin k, ∃ u : ℕ → ℝ,
      (∀ t, u t ∈ Set.range fun q : ℚ => (q : ℝ)) ∧
      Filter.Tendsto u Filter.atTop (nhds (y i)) := by
    intro i
    have h1 : y i ∈ closure (Set.range fun q : ℚ => (q : ℝ)) := Rat.denseRange_cast (y i)
    exact mem_closure_iff_seq_limit.mp h1
  choose u hu1 hu2 using hdense
  have hqex : ∀ (i : Fin k) (t : ℕ), ∃ q : ℚ, (q : ℝ) = u i t := fun i t => hu1 i t
  choose Q hQ using hqex
  have hFc : Continuous fun v : Fin k → ℝ => v ⬝ᵥ (M.map fun a => (a : ℝ)) *ᵥ v := by
    simp only [Matrix.dotProduct, Matrix.mulVec, Matrix.map_apply]
    exact continuous_finset_sum _ fun i _ =>
      (continuous_apply i).mul
        (continuous_finset_sum _ fun j _ => continuous_const.mul (continuous_apply j))
  have hseq : Filter.Tendsto
      (fun t => (fun i => ((Q i t : ℚ) : ℝ)) ⬝ᵥ (M.map fun a => (a : ℝ)) *ᵥ
        (fun i => ((Q i t : ℚ) : ℝ)))
      Filter.atTop (nhds (y ⬝ᵥ (M.map fun a => (a : ℝ)) *ᵥ y)) := by
    apply (hFc.tendsto y).comp
    rw [tendsto_pi_nhds]
    intro i
    have heq : (fun t => ((Q i t : ℚ) : ℝ)) = u i := funext fun t => hQ i t
    rw [heq]
    exact hu2 i
  refine ge_of_tendsto hseq (Filter.Eventually.of_forall fun t => ?_)
  have hcast : (fun i => ((Q i t : ℚ) : ℝ)) ⬝ᵥ (M.map fun a => (a : ℝ)) *ᵥ
      (fun i => ((Q i t : ℚ) : ℝ)) =
      (((fun i => Q i t) ⬝ᵥ M *ᵥ fun i => Q i t : ℚ) : ℝ) := by
    simp only [Matrix.dotProduct, Matrix.mulVec, Matrix.map_apply]
    push_cast
    rfl
  rw [hcast]
  exact_mod_cast h fun i => Q i t

theorem posSemidef_map_real {k : ℕ} {M : Matrix (Fin k) (Fin k) ℚ} (h : M.PosSemidef) :
    (M.map fun a => (a : ℝ)).PosSemidef := by
  constructor
  · exact h.1.map _ fun a => by simp [star_trivial]
  · intro x
    have hs : star x = x := funext fun i => star_trivial (x i)
    rw [hs]
    exact quadForm_nonneg_real (quadForm_nonneg h) x

theorem posSemidef_real_det_nonneg {k : ℕ} {M : Matrix (Fin k) (Fin k) ℝ}
    (h : M.PosSemidef) : 0 ≤ M.det := by
  rw [h.1.det_eq_prod_eigenvalues]
  refine Finset.prod_nonneg fun i _ => ?_
  exact_mod_cast h.eigenvalues_nonneg i

/-- The determinant of a rational positive definite matrix is positive. -/
theorem posDef_det_pos {k : ℕ} {M : Matrix (Fin k) (Fin k) ℚ} (h : M.PosDef) :
    0 < M.det := by
  have hne := posDef_det_ne_zero h
  have hcast : ((M.det : ℚ) : ℝ) = (M.map fun a => (a : ℝ)).det := by
    have := (Rat.castHom ℝ).map_det M
    simpa using this
  have hnnR : (0 : ℝ) ≤ ((M.det : ℚ) : ℝ) := by
    rw [hcast]
    exact posSemidef_real_det_nonneg (posSemidef_map_real h.posSemidef)
  have hnn : 0 ≤ M.det := by exact_mod_cast hnnR
  exact lt_of_le_of_ne hnn (Ne.symm hne)

/-- A sum over `Fin k` of a function supported on indices below `r ≤ k`
collapses to a sum over `Fin r`. -/
theorem sum_extend {r k : ℕ} (hr : r ≤ k) (g : Fin r → ℚ) :
    (∑ p : Fin k, if h : (p : ℕ) < r then g ⟨p, h⟩ else 0) = ∑ p : Fin r, g p := by
  have h1 : (∑ p : Fin k, if h : (p : ℕ) < r then g ⟨p, h⟩ else 0)
      = ∑ i ∈ Finset.range k, (if h : i < r then g ⟨i, h⟩ else 0) :=
    Fin.sum_univ_eq_sum_range (fun i => if h : i < r then g ⟨i, h⟩ else 0) k
  have h2 : (∑ p : Fin r, if h : (p : ℕ) < r then g ⟨p, h⟩ else 0)
      = ∑ i ∈ Finset.range r, (if h : i < r then g ⟨i, h⟩ else 0) :=
    Fin.sum_univ_eq_sum_range (fun i => if h : i < r then g ⟨i, h⟩ else 0) r
  have h3 : (∑ i ∈ Finset.range r, (if h : i < r then g ⟨i, h⟩ else 0))
      = ∑ i ∈ Finset.range k, (if h : i < r then g ⟨i, h⟩ else 0) := by
    refine Finset.sum_subset (Finset.range_subset.mpr hr) fun x _ hx => ?_
    rw [dif_neg (by simpa using hx)]
  have h4 : (∑ p : Fin r, if h : (p : ℕ) < r then g ⟨p, h⟩ else 0) = ∑ p : Fin r, g p := by
    refine Finset.sum_congr rfl fun p _ => ?_
    rw [dif_pos p.isLt]
  rw [h1, ← h3, ← h2, h4]

/-- Positive definiteness is inherited by leading principal submatrices. -/
theorem posDef_submatrix_castLE {k : ℕ} {M : Matrix (Fin k) (Fin k) ℚ} (h : M.PosDef)
    {r : ℕ} (hr : r ≤ k) : (M.submatrix (Fin.castLE hr) (Fin.castLE hr)).PosDef := by
  refine ⟨h.1.submatrix _, fun x hx => ?_⟩
  rw [star_vec_eq]
  set xhat : Fin k → ℚ := fun p => if hp : (p : ℕ) < r then x ⟨p, hp⟩ else 0 with hxhat
  have hxhat_cast : ∀ p : Fin r, xhat (Fin.castLE hr p) = x p := by
    intro p
    have hp : ((Fin.castLE hr p : Fin k) : ℕ) < r := p.isLt
    simp only [hxhat]
    rw [dif_pos hp]
    rfl
  have hxhatne : xhat ≠ 0 := by
    obtain ⟨i, hi⟩ := Function.ne_iff.mp hx
    intro h0
    apply hi
    have hci := congrFun h0 (Fin.castLE hr i)
    rwa [hxhat_cast] at hci
  have inner_eq : ∀ p : Fin k, (∑ q : Fin k, M p q * xhat q)
      = ∑ q : Fin r, M p (Fin.castLE hr q) * x q := by
    intro p
    have hterm : ∀ q : Fin k, M p q * xhat q
        = (if hq : (q : ℕ) < r then M p (Fin.castLE hr ⟨q, hq⟩) * x ⟨q, hq⟩ else 0) := by
      intro q
      by_cases hq : (q : ℕ) < r
      · rw [dif_pos hq]
        simp only [hxhat]
        rw [dif_pos hq]
        rfl
      · rw [dif_neg hq]
        simp only [hxhat]
        rw [dif_neg hq, mul_zero]
    rw [Finset.sum_congr rfl fun q _ => hterm q]
    exact sum_extend hr fun q => M p (Fin.castLE hr q) * x q
  have outer_eq : (∑ p : Fin k, xhat p * ∑ q : Fin r, M p (Fin.castLE hr q) * x q)
      = ∑ p : Fin r, x p * ∑ q : Fin r, M (Fin.castLE hr p) (Fin.castLE hr q) * x q := by
    have hterm : ∀ p : Fin k, xhat p * (∑ q : Fin r, M p (Fin.castLE hr q) * x q)
        = (if hp : (p : ℕ) < r then
            x ⟨p, hp⟩ * ∑ q : Fin r, M (Fin.castLE hr ⟨p, hp⟩) (Fin.castLE hr q) * x q
          else 0) := by
      intro p
      by_cases hp : (p : ℕ) < r
      · rw [dif_pos hp]
        simp only [hxhat]
        rw [dif_pos hp]
        rfl
      · rw [dif_neg hp]
        simp only [hxhat]
        rw [dif_neg hp, zero_mul]
    rw [Finset.sum_congr rfl fun p _ => hterm p]
    exact sum_extend hr fun p =>
      x p * ∑ q : Fin r, M (Fin.castLE hr p) (Fin.castLE hr q) * x q
  have hform : x ⬝ᵥ (M.submatrix (Fin.castLE hr) (Fin.castLE hr)) *ᵥ x
      = xhat ⬝ᵥ M *ᵥ xhat := by
    simp only [Matrix.dotProduct, Matrix.mulVec, Matrix.submatrix_apply]
    rw [← outer_eq]
    refine Finset.sum_congr rfl fun p _ => ?_
    rw [inner_eq p]
  rw [hform]
  exact quadForm_pos h hxhatne

/-- The inverse of a rational positive definite matrix is positive
definite. -/
theorem posDef_inv {k : ℕ} {M : Matrix (Fin k) (Fin k) ℚ} (h : M.PosDef) :
    (M⁻¹).PosDef := by
  have hdet : IsUnit M.det := isUnit_iff_ne_zero.mpr (posDef_det_ne_zero h)
  refine ⟨h.1.inv, fun x hx => ?_⟩
  rw [star_vec_eq]
  have hMx : M *ᵥ (M⁻¹ *ᵥ x) = x := by
    rw [Matrix.mulVec_mulVec, Matrix.mul_nonsing_inv M hdet, Matrix.one_mulVec]
  have hy : M⁻¹ *ᵥ x ≠ 0 := by
    intro h0
    apply hx
    rw [← hMx, h0, Matrix.mulVec_zero]
  have hq := quadForm_pos h hy
  calc (0 : ℚ) < (M⁻¹ *ᵥ x) ⬝ᵥ M *ᵥ (M⁻¹ *ᵥ x) := hq
    _ = (M *ᵥ (M⁻¹ *ᵥ x)) ⬝ᵥ (M⁻¹ *ᵥ x) := (Matrix.dotProduct_comm _ _).symm
    _ = x ⬝ᵥ M⁻¹ *ᵥ x := by rw [hMx]

/-- The Schur complement matrix `A G⁻¹ Aᵀ` is positive definite when `G`
is positive definite and `A` has full row rank. -/
theorem schur_posDef {n m : ℕ} {G : Matrix (Fin n) (Fin n) ℚ}
    {A : Matrix (Fin m) (Fin n) ℚ} (hG : G.PosDef) (hA : FullRowRank A) :
    (A * G⁻¹ * Aᵀ).PosDef := by
  have hGinv := posDef_inv hG
  constructor
  · have h1 : (A * G⁻¹ * Aᵀ)ᵀ = A * (G⁻¹)ᵀ * Aᵀ := by
      rw [Matrix.transpose_mul, Matrix.transpose_mul, Matrix.transpose_transpose,
        Matrix.mul_assoc]
    have h2 : (G⁻¹)ᵀ = G⁻¹ := posDef_transpose_eq hGinv
    have h3 : (A * G⁻¹ * Aᵀ)ᵀ = A * G⁻¹ * Aᵀ := by rw [h1, h2]
    have h4 : (A * G⁻¹ * Aᵀ)ᴴ = (A * G⁻¹ * Aᵀ)ᵀ := by
      ext i j
      rw [Matrix.conjTranspose_apply, Matrix.transpose_apply, star_trivial]
    exact h4.trans h3
  · intro y hy
    rw [star_vec_eq]
    have hz : Aᵀ *ᵥ y ≠ 0 := fun h0 => hy (hA y h0)
    have hform : y ⬝ᵥ (A * G⁻¹ * Aᵀ) *ᵥ y = (Aᵀ *ᵥ y) ⬝ᵥ G⁻¹ *ᵥ (Aᵀ *ᵥ y) := by
      rw [Matrix.mul_assoc, ← Matrix.mulVec_mulVec, ← Matrix.mulVec_mulVec,
        Matrix.dotProduct_mulVec, ← Matrix.mulVec_transpose]
    rw [hform]
    exact quadForm_pos hGinv hz

/-! ## The Cholesky test -/

theorem lowerSymm_eq_of_transpose_eq {k : ℕ} {G : Matrix (Fin k) (Fin k) ℚ}
    (h : Gᵀ = G) : lowerSymm G = G := by
  ext i j
  simp only [lowerSymm, Matrix.of_apply]
  split
  · rfl
  · have hji := congrFun (congrFun h i) j
    rwa [Matrix.transpose_apply] at hji

/-- For a positive definite `G` the Cholesky factorization attempt
succeeds: every leading principal minor is positive. -/
theorem posDef_lltSucceeds {k : ℕ} {G : Matrix (Fin k) (Fin k) ℚ} (h : G.PosDef) :
    lltSucceeds G = true := by
  rw [lltSucceeds, decide_eq_true_eq]
  intro i
  rw [lowerSymm_eq_of_transpose_eq (posDef_transpose_eq h)]
  exact posDef_det_pos (posDef_submatrix_castLE h i.isLt)

theorem leadingMinor_one {k : ℕ} (G : Matrix (Fin k) (Fin k) ℚ) (h : 1 ≤ k) :
    leadingMinor G 1 h = G ⟨0, h⟩ ⟨0, h⟩ := by
  rw [leadingMinor, Matrix.det_fin_one]
  rfl

/-! ## Claim theorems -/

/-- The solver body factors as the branch on the Cholesky test between
the two named strategies. -/
theorem solveKKT_eq_branch {n m : ℕ} (G : Matrix (Fin n) (Fin n) ℚ) (c : Fin n → ℚ)
    (A : Matrix (Fin m) (Fin n) ℚ) (b : Fin m → ℚ) :
    solveKKT G c A b =
      if lltSucceeds G then strategyA G c A b else strategyB G c A b := by
  unfold solveKKT strategyA strategyB
  rfl

/-- C4: the choice between the range-space path (Strategy A) and the full
KKT fallback (Strategy B) is determined solely by the Cholesky-type
positive-definiteness test on `G`: the solver's output is exactly
`strategyA`'s when the test succeeds and exactly `strategyB`'s when it
fails, with no combination of or retry between the two strategies. -/
theorem strategy_selection {n m : ℕ} (G : Matrix (Fin n) (Fin n) ℚ) (c : Fin n → ℚ)
    (A : Matrix (Fin m) (Fin n) ℚ) (b : Fin m → ℚ) :
    solveKKT G c A b =
      if lltSucceeds G then strategyA G c A b else strategyB G c A b :=
  solveKKT_eq_branch G c A b

/-- C3: for every program made of the supported term kinds (quadratic
costs and linear equality constraints, the structural precondition of the
solver), `Solve` returns `kSolutionFound`; no execution path returns a
failure, infeasible, or unbounded outcome. -/
theorem solve_always_solution_found (prog : MathematicalProgram) :
    (Solve prog).result = SolutionResult.kSolutionFound := by
  unfold Solve solveKKT
  split <;> rfl

/-- C9: the solver is deterministic; two runs on the same assembled
problem `(G, c, A, b)` return identical outputs (solution vector, reported
cost, and outcome). -/
theorem solve_deterministic {n m : ℕ}
    (G G' : Matrix (Fin n) (Fin n) ℚ) (c c' : Fin n → ℚ)
    (A A' : Matrix (Fin m) (Fin n) ℚ) (b b' : Fin m → ℚ)
    (hG : G = G') (hc : c = c') (hA : A = A') (hb : b = b') :
    solveKKT G c A b = solveKKT G' c' A' b' := by
  subst hG
  subst hc
  subst hA
  subst hb
  rfl

/-- Witness for C9 at a concrete problem. -/
theorem solve_deterministic_witness :
    solveKKT !![(2 : ℚ)] ![1] !![(1 : ℚ)] ![3] = solveKKT !![(2 : ℚ)] ![1] !![(1 : ℚ)] ![3] :=
  solve_deterministic !![(2 : ℚ)] !![(2 : ℚ)] ![1] ![1] !![(1 : ℚ)] !![(1 : ℚ)] ![3] ![3]
    rfl rfl rfl rfl

/-- C8: Strategy B assembles the augmented `(n+m) × (n+m)` matrix with
blocks `[G, -Aᵀ; A, 0]` and the augmented right-hand side with top `n`
entries `-c` and bottom `m` entries `b`, solves, and returns as `x`
exactly the first `n` entries of the least-squares solution. -/
theorem strategyB_structure {n m : ℕ} (G : Matrix (Fin n) (Fin n) ℚ) (c : Fin n → ℚ)
    (A : Matrix (Fin m) (Fin n) ℚ) (b : Fin m → ℚ) :
    (∀ i j : Fin n, kktMatrix G A (Fin.castAdd m i) (Fin.castAdd m j) = G i j) ∧
    (∀ (i : Fin n) (j : Fin m),
      kktMatrix G A (Fin.castAdd m i) (Fin.natAdd n j) = -(Aᵀ i j)) ∧
    (∀ (i : Fin m) (j : Fin n),
      kktMatrix G A (Fin.natAdd n i) (Fin.castAdd m j) = A i j) ∧
    (∀ i j : Fin m, kktMatrix G A (Fin.natAdd n i) (Fin.natAdd n j) = 0) ∧
    (∀ i : Fin n, kktRhs c b (Fin.castAdd m i) = -c i) ∧
    (∀ i : Fin m, kktRhs c b (Fin.natAdd n i) = b i) ∧
    ((strategyB G c A b).x =
      fun i : Fin n => svdSolve (kktMatrix G A) (kktRhs c b) (Fin.castAdd m i)) := by
  have hlt : ∀ i : Fin n, ((Fin.castAdd m i : Fin (n + m)) : ℕ) < n := fun i => i.isLt
  have hge : ∀ i : Fin m, ¬ ((Fin.natAdd n i : Fin (n + m)) : ℕ) < n := fun i =>
    Nat.not_lt.mpr (by simp)
  refine ⟨?_, ?_, ?_, ?_, ?_, ?_, rfl⟩
  · intro i j
    simp only [kktMatrix, Matrix.of_apply]
    rw [dif_pos (hlt i), dif_pos (hlt j)]
    rfl
  · intro i j
    simp only [kktMatrix, Matrix.of_apply]
    rw [dif_pos (hlt i), dif_neg (hge j)]
    congr 2
    simp
  · intro i j
    simp only [kktMatrix, Matrix.of_apply]
    rw [dif_neg (hge i), dif_pos (hlt j)]
    congr 1
    apply Fin.ext
    simp
  · intro i j
    simp only [kktMatrix, Matrix.of_apply]
    rw [dif_neg (hge i), dif_neg (hge j)]
  · intro i
    simp only [kktRhs]
    rw [dif_pos (hlt i)]
    rfl
  · intro i
    simp only [kktRhs]
    rw [dif_neg (hge i)]
    congr 1
    apply Fin.ext
    simp

/-- C2: for a problem with `G` symmetric positive definite (over `ℚ`,
`Matrix.PosDef` is exactly that: the trivial star makes `IsHermitian`
symmetry) and `A` of full row rank, the `x` returned by Strategy A and
the internally computed multiplier vector satisfy the KKT conditions
`A x = b` and `G x + c - Aᵀ y = 0` exactly. -/
theorem strategyA_kkt {n m : ℕ} (G : Matrix (Fin n) (Fin n) ℚ) (c : Fin n → ℚ)
    (A : Matrix (Fin m) (Fin n) ℚ) (b : Fin m → ℚ)
    (hG : G.PosDef) (hA : FullRowRank A) :
    A *ᵥ (strategyA G c A b).x = b ∧
    G *ᵥ (strategyA G c A b).x + c - Aᵀ *ᵥ strategyALambda G c A b = 0 := by
  have hGt : Gᵀ = G := posDef_transpose_eq hG
  have hls : lowerSymm G = G := lowerSymm_eq_of_transpose_eq hGt
  have hGdet : IsUnit G.det := isUnit_iff_ne_zero.mpr (posDef_det_ne_zero hG)
  have hSpd : (A * G⁻¹ * Aᵀ).PosDef := schur_posDef hG hA
  have hSdet : IsUnit (A * G⁻¹ * Aᵀ).det := isUnit_iff_ne_zero.mpr (posDef_det_ne_zero hSpd)
  have hGinvT : (G⁻¹)ᵀ = G⁻¹ := posDef_transpose_eq (posDef_inv hG)
  have hAiG : lltSolveMat G Aᵀ = G⁻¹ * Aᵀ := by
    rw [lltSolveMat, hls, matInv_eq_inv]
  have hS : A * lltSolveMat G Aᵀ = A * G⁻¹ * Aᵀ := by
    rw [hAiG, Matrix.mul_assoc]
  have hx : (strategyA G c A b).x = G⁻¹ *ᵥ (Aᵀ *ᵥ strategyALambda G c A b - c) := by
    show strategyAX G c A b = _
    rw [strategyAX, lltSolveVec, hls, matInv_eq_inv]
  constructor
  · rw [hx]
    have hlam_eq : (A * G⁻¹ * Aᵀ) *ᵥ strategyALambda G c A b = (A * G⁻¹) *ᵥ c + b := by
      rw [strategyALambda, qrSolve, hS, matInv_eq_inv, Matrix.mulVec_mulVec,
        Matrix.mul_nonsing_inv _ hSdet, Matrix.one_mulVec, hAiG, Matrix.transpose_mul,
        Matrix.transpose_transpose, hGinvT]
    calc A *ᵥ (G⁻¹ *ᵥ (Aᵀ *ᵥ strategyALambda G c A b - c))
        = (A * G⁻¹) *ᵥ (Aᵀ *ᵥ strategyALambda G c A b - c) := by
          rw [Matrix.mulVec_mulVec]
      _ = (A * G⁻¹) *ᵥ (Aᵀ *ᵥ strategyALambda G c A b) - (A * G⁻¹) *ᵥ c := by
          rw [Matrix.mulVec_sub]
      _ = (A * G⁻¹ * Aᵀ) *ᵥ strategyALambda G c A b - (A * G⁻¹) *ᵥ c := by
          rw [Matrix.mulVec_mulVec]
      _ = ((A * G⁻¹) *ᵥ c + b) - (A * G⁻¹) *ᵥ c := by rw [hlam_eq]
      _ = b := by abel
  · rw [hx, Matrix.mulVec_mulVec, Matrix.mul_nonsing_inv _ hGdet, Matrix.one_mulVec]
    abel

/-- Witness for C2: the end-to-end example `minimize x₁² + x₂²` subject to
`x₁ + x₂ = 1`, i.e. `G = 2 I₂`, `c = 0`, `A = [1 1]`, `b = [1]`. -/
theorem strategyA_kkt_witness :
    (!![(2 : ℚ), 0; 0, 2]).PosDef ∧ FullRowRank !![(1 : ℚ), 1] ∧
    (!![(1 : ℚ), 1] *ᵥ (strategyA !![(2 : ℚ), 0; 0, 2] ![0, 0] !![(1 : ℚ), 1] ![1]).x = ![1] ∧
      !![(2 : ℚ), 0; 0, 2] *ᵥ (strategyA !![(2 : ℚ), 0; 0, 2] ![0, 0] !![(1 : ℚ), 1] ![1]).x
        + ![0, 0]
        - (!![(1 : ℚ), 1])ᵀ *ᵥ strategyALambda !![(2 : ℚ), 0; 0, 2] ![0, 0] !![(1 : ℚ), 1] ![1]
        = 0) := by
  have hpd : (!![(2 : ℚ), 0; 0, 2]).PosDef := by
    have hd : !![(2 : ℚ), 0; 0, 2] = Matrix.diagonal ![2, 2] := by
      ext i j
      fin_cases i <;> fin_cases j <;> simp [Matrix.diagonal]
    rw [hd]
    exact Matrix.PosDef.diagonal (by intro i; fin_cases i <;> norm_num)
  have hfrr : FullRowRank !![(1 : ℚ), 1] := by
    intro y hy
    funext i
    fin_cases i
    have h0 := congrFun hy 0
    simpa [Matrix.mulVec, Matrix.dotProduct] using h0
  exact ⟨hpd, hfrr, strategyA_kkt !![(2 : ℚ), 0; 0, 2] ![0, 0] !![(1 : ℚ), 1] ![1] hpd hfrr⟩

/-- On a constraint-free problem with positive definite Hessian the solver
takes the range-space path and returns the unconstrained minimizer. -/
theorem unconstrained_solve {n : ℕ} (G : Matrix (Fin n) (Fin n) ℚ) (c : Fin n → ℚ)
    (A : Matrix (Fin 0) (Fin n) ℚ) (b : Fin 0 → ℚ) (hG : G.PosDef) :
    lltSucceeds G = true ∧
    solveKKT G c A b = strategyA G c A b ∧
    G *ᵥ (solveKKT G c A b).x = -c ∧
    ∀ z : Fin n → ℚ, G *ᵥ z = -c → z = (solveKKT G c A b).x := by
  have hllt := posDef_lltSucceeds hG
  have hsel : solveKKT G c A b = strategyA G c A b := by
    rw [solveKKT_eq_branch, hllt]
    simp
  have hGdet : IsUnit G.det := isUnit_iff_ne_zero.mpr (posDef_det_ne_zero hG)
  have hls : lowerSymm G = G := lowerSymm_eq_of_transpose_eq (posDef_transpose_eq hG)
  have hAT : Aᵀ *ᵥ strategyALambda G c A b = 0 := by
    funext i
    simp [Matrix.mulVec, Matrix.dotProduct]
  have hx : (solveKKT G c A b).x = G⁻¹ *ᵥ (-c) := by
    rw [hsel]
    show strategyAX G c A b = _
    rw [strategyAX, lltSolveVec, hls, matInv_eq_inv, hAT, zero_sub]
  refine ⟨hllt, hsel, ?_, ?_⟩
  · rw [hx, Matrix.mulVec_mulVec, Matrix.mul_nonsing_inv _ hGdet, Matrix.one_mulVec]
  · intro z hz
    rw [hx, ← hz, Matrix.mulVec_mulVec, Matrix.nonsing_inv_mul _ hGdet, Matrix.one_mulVec]

/-- C10: when the program has no linear equality constraints (`m = 0`) and
the assembled `G` is positive definite, the solver takes Strategy A (with
empty `A`, `b`, and multiplier vector) and the returned `x` is the
unconstrained minimizer, i.e. the unique solution of `G x = -c`. -/
theorem no_constraints_minimizer {n : ℕ} (G : Matrix (Fin n) (Fin n) ℚ) (c : Fin n → ℚ)
    (A : Matrix (Fin 0) (Fin n) ℚ) (b : Fin 0 → ℚ) (hG : G.PosDef) :
    lltSucceeds G = true ∧
    solveKKT G c A b = strategyA G c A b ∧
    G *ᵥ (solveKKT G c A b).x = -c ∧
    ∀ z : Fin n → ℚ, G *ᵥ z = -c → z = (solveKKT G c A b).x :=
  unconstrained_solve G c A b hG

/-- Witness for C10 at `G = [[2]]`, `c = [1]`, no constraints. -/
theorem no_constraints_minimizer_witness :
    (!![(2 : ℚ)]).PosDef ∧
    (lltSucceeds !![(2 : ℚ)] = true ∧
      solveKKT !![(2 : ℚ)] ![1] (Matrix.of ![]) ![]
        = strategyA !![(2 : ℚ)] ![1] (Matrix.of ![]) ![] ∧
      !![(2 : ℚ)] *ᵥ (solveKKT !![(2 : ℚ)] ![1] (Matrix.of ![]) ![]).x = -![1] ∧
      ∀ z : Fin 1 → ℚ, !![(2 : ℚ)] *ᵥ z = -![1] →
        z = (solveKKT !![(2 : ℚ)] ![1] (Matrix.of ![]) ![]).x) := by
  have hpd : (!![(2 : ℚ)]).PosDef := by
    have hd : !![(2 : ℚ)] = Matrix.diagonal ![2] := by
      ext i j
      fin_cases i
      fin_cases j
      simp [Matrix.diagonal]
    rw [hd]
    exact Matrix.PosDef.diagonal (by intro i; fin_cases i; norm_num)
  exact ⟨hpd, no_constraints_minimizer !![(2 : ℚ)] ![1] (Matrix.of ![]) ![] hpd⟩

/-! ## Assembler lemmas -/

theorem foldl_add_init {α β : Type*} [AddCommMonoid β] (f : α → β) (ts : List α)
    (init : β) : ts.foldl (fun acc t => acc + f t) init = init + (ts.map f).sum := by
  induction ts generalizing init with
  | nil => simp
  | cons t rest ih => simp [ih, add_assoc]

theorem assembleG_eq_sum {n : ℕ} (ts : List (QuadraticCostTerm n)) :
    assembleG ts = (ts.map scatterG).sum := by
  rw [assembleG, foldl_add_init, zero_add]

theorem assemblec_eq_sum {n : ℕ} (ts : List (QuadraticCostTerm n)) :
    assemblec ts = (ts.map scatterc).sum := by
  rw [assemblec, foldl_add_init, zero_add]

/-- Block placement of the stacked constraint rows: at the row cursor
(total row count of the terms before position `lv`) plus a local row
offset `r`, the assembled row and right-hand side are those of the term
at position `lv`. -/
theorem stacking_aux {n : ℕ} (cs : List (LinearEqualityConstraintTerm n)) : ∀ (lv : ℕ)
    (hl : lv < cs.length) (r : Fin (cs.get ⟨lv, hl⟩).rows) (q : Fin n),
    rowOf cs (numConstraints (List.take lv cs) + (r : ℕ)) q = termRow (cs.get ⟨lv, hl⟩) r q ∧
    rhsOf cs (numConstraints (List.take lv cs) + (r : ℕ)) = (cs.get ⟨lv, hl⟩).lower_bound r := by
  induction cs with
  | nil =>
    intro lv hl r q
    exact absurd hl (by simp)
  | cons t rest ih =>
    intro lv hl r q
    cases lv with
    | zero =>
      constructor
      · simp only [List.take_zero, numConstraints, Nat.zero_add, rowOf]
        rw [dif_pos (show (r : ℕ) < t.rows from r.isLt)]
        rfl
      · simp only [List.take_zero, numConstraints, Nat.zero_add, rhsOf]
        rw [dif_pos (show (r : ℕ) < t.rows from r.isLt)]
        rfl
    | succ lv' =>
      have hl' : lv' < rest.length := by simpa using hl
      constructor
      · simp only [List.take_succ_cons, numConstraints, rowOf]
        rw [dif_neg (by omega), show t.rows + numConstraints (List.take lv' rest) + (r : ℕ)
            - t.rows = numConstraints (List.take lv' rest) + (r : ℕ) from by omega]
        exact (ih lv' hl' r q).1
      · simp only [List.take_succ_cons, numConstraints, rhsOf]
        rw [dif_neg (by omega), show t.rows + numConstraints (List.take lv' rest) + (r : ℕ)
            - t.rows = numConstraints (List.take lv' rest) + (r : ℕ) from by omega]
        exact (ih lv' hl' r q).2

theorem numConstraints_eq_sum {n : ℕ} (cs : List (LinearEqualityConstraintTerm n)) :
    numConstraints cs = (cs.map fun t => t.rows).sum := by
  induction cs with
  | nil => rfl
  | cons t rest ih => rw [numConstraints, List.map_cons, List.sum_cons, ih]

/-- First example term for the stacking claim: 2 rows over global
variables 0 and 1. -/
def exTerm1 : LinearEqualityConstraintTerm 3 :=
  ⟨2, 2, !![1, 2; 3, 4], ![5, 6], ![0, 1]⟩

/-- Second example term for the stacking claim: 3 rows over global
variable 2. -/
def exTerm2 : LinearEqualityConstraintTerm 3 :=
  ⟨1, 3, !![7; 8; 9], ![10, 11, 12], ![2]⟩

/-- C5: the assembler accumulates quadratic cost contributions
additively: the assembled `G` and `c` are the sums of the per-term
scattered contributions (`scatterG` adds every `Q i j` into global
position `(vars i, vars j)`, `scatterc` every `b i` into `vars i`), and
appending one more term adds its contribution to the previous result, so
overlapping terms sum rather than overwrite; in particular a term over
variables `{0, 1}` with `Q = [[2, 0], [0, 2]]` plus a term over `{1}`
with `Q = [[3]]` yields `G 1 1 = 2 + 3 = 5`. -/
theorem quadratic_cost_accumulation :
    (∀ (n : ℕ) (ts : List (QuadraticCostTerm n)),
      assembleG ts = (ts.map scatterG).sum ∧ assemblec ts = (ts.map scatterc).sum) ∧
    (∀ (n : ℕ) (ts : List (QuadraticCostTerm n)) (t : QuadraticCostTerm n),
      assembleG (ts ++ [t]) = assembleG ts + scatterG t ∧
      assemblec (ts ++ [t]) = assemblec ts + scatterc t) ∧
    assembleG [(⟨2, !![2, 0; 0, 2], ![0, 0], ![0, 1]⟩ : QuadraticCostTerm 2),
      ⟨1, !![3], ![0], ![1]⟩] 1 1 = 5 := by
  refine ⟨fun n ts => ⟨assembleG_eq_sum ts, assemblec_eq_sum ts⟩, fun n ts t => ⟨?_, ?_⟩, ?_⟩
  · rw [assembleG_eq_sum, assembleG_eq_sum, List.map_append, List.sum_append]
    simp
  · rw [assemblec_eq_sum, assemblec_eq_sum, List.map_append, List.sum_append]
    simp
  · norm_num +decide [assembleG, scatterG, Fin.sum_univ_succ]

/-- C6: the assembler stacks equality constraint terms row-wise in
presentation order: the total row count `m` is the sum of the terms' row
counts; the term at position `ℓ` occupies the contiguous row block
starting at the row cursor (the total row count of the preceding terms),
each of its rows carrying the local coefficient columns at the term's
global variable indices and zeros elsewhere (`termRow`), with the
right-hand side copied alongside; e.g. terms with row counts 2 and 3
produce an `m = 5` system with term 1 in rows 0–1 (e.g. entry `(0,0)` is
`1`) and term 2 in rows 2–4 (e.g. row 2 is `7` at its variable column 2,
`0` at column 0, with right-hand side `10`). -/
theorem constraint_stacking :
    (∀ (n : ℕ) (cs : List (LinearEqualityConstraintTerm n)),
      numConstraints cs = (cs.map fun t => t.rows).sum) ∧
    (∀ (n : ℕ) (cs : List (LinearEqualityConstraintTerm n)) (r : Fin (numConstraints cs))
      (q : Fin n), assembleA cs r q = rowOf cs (r : ℕ) q ∧ assembleb cs r = rhsOf cs (r : ℕ)) ∧
    (∀ (n : ℕ) (cs : List (LinearEqualityConstraintTerm n)) (pos : Fin cs.length)
      (r : Fin (cs.get pos).rows) (q : Fin n),
      rowOf cs (numConstraints (List.take (pos : ℕ) cs) + (r : ℕ)) q
        = termRow (cs.get pos) r q ∧
      rhsOf cs (numConstraints (List.take (pos : ℕ) cs) + (r : ℕ))
        = (cs.get pos).lower_bound r) ∧
    (numConstraints [exTerm1, exTerm2] = 5 ∧
      rowOf [exTerm1, exTerm2] 0 0 = 1 ∧
      rowOf [exTerm1, exTerm2] 2 2 = 7 ∧
      rowOf [exTerm1, exTerm2] 2 0 = 0 ∧
      rhsOf [exTerm1, exTerm2] 2 = 10) := by
  refine ⟨fun n cs => numConstraints_eq_sum cs,
    fun n cs r q => ⟨rfl, rfl⟩,
    fun n cs pos r q => stacking_aux cs (pos : ℕ) pos.isLt r q,
    by decide, ?_, ?_, ?_, ?_⟩
  · norm_num +decide [rowOf, termRow, lastHit, exTerm1, exTerm2]
  · norm_num +decide [rowOf, termRow, lastHit, exTerm1, exTerm2]
  · norm_num +decide [rowOf, termRow, lastHit, exTerm1, exTerm2]
  · norm_num +decide [rhsOf, exTerm1, exTerm2]

/-- C7: on the degenerate problem with `n = 2`, `G = 0`, `c = 0`,
`A = I₂`, `b = [3, 4]`, the Cholesky test fails (a zero pivot), the
solver takes the Strategy B fallback, and returns `x = [3, 4]` with
reported optimal cost `0`. -/
theorem degenerate_fallback :
    lltSucceeds !![(0 : ℚ), 0; 0, 0] = false ∧
    solveKKT !![(0 : ℚ), 0; 0, 0] ![0, 0] !![(1 : ℚ), 0; 0, 1] ![3, 4]
      = { x := ![3, 4], optimal_cost := 0, result := SolutionResult.kSolutionFound } := by
  have hllt : lltSucceeds !![(0 : ℚ), 0; 0, 0] = false := by
    rw [lltSucceeds, decide_eq_false_iff_not]
    intro hall
    have h0 : 0 < leadingMinor (lowerSymm !![(0 : ℚ), 0; 0, 0]) 1 (by omega) := hall 0
    rw [leadingMinor_one] at h0
    norm_num [lowerSymm] at h0
  have hM : kktMatrix !![(0 : ℚ), 0; 0, 0] !![(1 : ℚ), 0; 0, 1]
      = !![0, 0, -1, 0; 0, 0, 0, -1; 1, 0, 0, 0; 0, 1, 0, 0] := by
    ext i j
    fin_cases i <;> fin_cases j <;> decide
  have hrhs : kktRhs ![(0 : ℚ), 0] ![(3 : ℚ), 4] = ![0, 0, 3, 4] := by
    funext i
    fin_cases i <;> decide
  have hdet : (!![(0 : ℚ), 0, -1, 0; 0, 0, 0, -1; 1, 0, 0, 0; 0, 1, 0, 0]).det ≠ 0 := by
    norm_num [Matrix.det_succ_row_zero, Fin.sum_univ_succ, Fin.succAbove, Fin.lt_def]
  have hsolve : svdSolve (kktMatrix !![(0 : ℚ), 0; 0, 0] !![(1 : ℚ), 0; 0, 1])
      (kktRhs ![(0 : ℚ), 0] ![(3 : ℚ), 4]) = ![3, 4, 0, 0] := by
    rw [svdSolve, hM, hrhs]
    apply matInv_mulVec_of_mulVec hdet
    funext i
    fin_cases i <;> norm_num [Matrix.mulVec, Matrix.dotProduct, Fin.sum_univ_succ]
  have hx : strategyBX !![(0 : ℚ), 0; 0, 0] ![0, 0] !![(1 : ℚ), 0; 0, 1] ![3, 4]
      = ![3, 4] := by
    funext i
    rw [strategyBX, hsolve]
    fin_cases i <;> rfl
  refine ⟨hllt, ?_⟩
  rw [solveKKT_eq_branch, hllt]
  simp only [Bool.false_eq_true, if_false, strategyB, SolveOutput.mk.injEq]
  refine ⟨hx, ?_, trivial⟩
  rw [hx]
  norm_num [Matrix.mulVec, Matrix.dotProduct, Fin.sum_univ_succ]

/-- The failing input exhibiting the optimal-cost slip: one decision
variable, a single quadratic cost with `Q = [[2]]` and `b = [1]` (the
objective `½xᵀGx + cᵀx = x² + x`), and no constraints. -/
def bugProg : MathematicalProgram :=
  { num_vars := 1
    quadratic_costs := [⟨1, !![2], ![1], ![0]⟩]
    linear_equality_constraints := [] }

/-- C1 fails on the code (code bug): both strategies report
`0.5 * x.dot(G * x + c)`, which is `½xᵀGx + ½cᵀx`, not the objective
`½xᵀGx + cᵀx` stated in the solver's own header comment (`minimize
1/2 x'*G*x + c'*x`).  On `bugProg` (minimize `x² + x`, no constraints)
the returned `x` is `[-1/2]`; the reported optimal cost is `0`, while
the objective value `½xᵀGx + cᵀx` at the returned `x` is `-1/4`. -/
theorem optimal_cost_mismatch :
    assembleG bugProg.quadratic_costs = !![2] ∧
    assemblec bugProg.quadratic_costs = ![1] ∧
    (Solve bugProg).x = ![-(1 / 2)] ∧
    (Solve bugProg).optimal_cost = 0 ∧
    (1 / 2) * ((![-(1 / 2)] : Fin 1 → ℚ) ⬝ᵥ !![(2 : ℚ)] *ᵥ ![-(1 / 2)])
      + (![(1 : ℚ)]) ⬝ᵥ ![-(1 / 2)] = -(1 / 4) ∧
    (Solve bugProg).optimal_cost ≠
      (1 / 2) * ((![-(1 / 2)] : Fin 1 → ℚ) ⬝ᵥ !![(2 : ℚ)] *ᵥ ![-(1 / 2)])
        + (![(1 : ℚ)]) ⬝ᵥ ![-(1 / 2)] := by
  have hG : assembleG [(⟨1, !![2], ![1], ![0]⟩ : QuadraticCostTerm 1)] = !![2] := by
    ext i j
    fin_cases i
    fin_cases j
    norm_num +decide [assembleG, scatterG, Fin.sum_univ_succ]
  have hc : assemblec [(⟨1, !![2], ![1], ![0]⟩ : QuadraticCostTerm 1)] = ![1] := by
    funext i
    fin_cases i
    norm_num +decide [assemblec, scatterc, Fin.sum_univ_succ]
  have hGb : assembleG bugProg.quadratic_costs = !![2] := hG
  have hcb : assemblec bugProg.quadratic_costs = ![1] := hc
  have hpd : (assembleG bugProg.quadratic_costs).PosDef := by
    rw [hGb]
    have hd : !![(2 : ℚ)] = Matrix.diagonal ![2] := by
      ext i j
      fin_cases i
      fin_cases j
      simp [Matrix.diagonal]
    rw [hd]
    exact Matrix.PosDef.diagonal (by intro i; fin_cases i; norm_num)
  have hkey := unconstrained_solve (assembleG bugProg.quadratic_costs)
    (assemblec bugProg.quadratic_costs) (assembleA bugProg.linear_equality_constraints)
    (assembleb bugProg.linear_equality_constraints) hpd
  have hmul : !![(2 : ℚ)] *ᵥ ![-(1 / 2)] = -![1] := by
    funext i
    fin_cases i
    norm_num [Matrix.mulVec, Matrix.dotProduct, Fin.sum_univ_succ]
  have hxval : (Solve bugProg).x = ![-(1 / 2)] := by
    refine (hkey.2.2.2 ![-(1 / 2)] ?_).symm
    rw [hGb, hcb]
    exact hmul
  have hcost : (Solve bugProg).optimal_cost
      = (1 / 2) * ((Solve bugProg).x ⬝ᵥ
          (assembleG bugProg.quadratic_costs *ᵥ (Solve bugProg).x
            + assemblec bugProg.quadratic_costs)) := by
    have hsel : Solve bugProg = strategyA (assembleG bugProg.quadratic_costs)
        (assemblec bugProg.quadratic_costs) (assembleA bugProg.linear_equality_constraints)
        (assembleb bugProg.linear_equality_constraints) := hkey.2.1
    rw [hsel]
    rfl
  have hnum0 : (1 / 2 : ℚ) * ((![-(1 / 2)] : Fin 1 → ℚ) ⬝ᵥ
      (!![(2 : ℚ)] *ᵥ ![-(1 / 2)] + ![1])) = 0 := by
    norm_num [Matrix.mulVec, Matrix.dotProduct, Fin.sum_univ_succ]
  have hcost0 : (Solve bugProg).optimal_cost = 0 := by
    rw [hcost, hxval, hGb, hcb]
    exact hnum0
  have hobj : (1 / 2 : ℚ) * ((![-(1 / 2)] : Fin 1 → ℚ) ⬝ᵥ !![(2 : ℚ)] *ᵥ ![-(1 / 2)])
      + (![(1 : ℚ)]) ⬝ᵥ ![-(1 / 2)] = -(1 / 4) := by
    norm_num [Matrix.mulVec, Matrix.dotProduct, Fin.sum_univ_succ]
  refine ⟨hGb, hcb, hxval, hcost0, hobj, ?_⟩
  rw [hcost0, hobj]
  norm_num

end DrakeQP
